/-
Verification of the budgeted streaming-matching engine
(`streaming_matching.py`): window planning, the budgeted augmentation
loop, the optimal-matching baseline and the accuracy evaluator.

The maximum-cardinality matching solver (`nx.max_weight_matching` with
`maxcardinality=True`) is an external collaborator; it is modelled as an
abstract `Oracle` parameter, together with the properties the spec
assumes of it (it returns a valid matching of the edge set it is given,
of maximum cardinality).  A concrete executable instance `maxMatching`
(brute force over the powerset) is provided and proved to satisfy these
properties, so every theorem can be evaluated on concrete inputs.

Randomness (`random.shuffle`) is modelled as an injected sequence of
permutations `shuf : Nat → List Edge → List Edge`; call `k` of
`random.shuffle` during one run applies `shuf k`.
-/
import Mathlib

set_option maxRecDepth 4000

/-- An edge is an (ordered-pair encoded) undirected edge `(u, v)`;
`read_edges` normalises so that `u < v`, hence equal pairs encode equal
graph edges. -/
abbrev Edge := Nat × Nat

/-- `v` is an endpoint of edge `e`. -/
def touches (v : Nat) (e : Edge) : Prop := v = e.1 ∨ v = e.2

instance (v : Nat) (e : Edge) : Decidable (touches v e) :=
  inferInstanceAs (Decidable (v = e.1 ∨ v = e.2))

/-- Two edges share a vertex. -/
def sharesVertex (e f : Edge) : Prop :=
  e.1 = f.1 ∨ e.1 = f.2 ∨ e.2 = f.1 ∨ e.2 = f.2

instance (e f : Edge) : Decidable (sharesVertex e f) :=
  inferInstanceAs (Decidable (e.1 = f.1 ∨ e.1 = f.2 ∨ e.2 = f.1 ∨ e.2 = f.2))

/-- A set of edges is a matching: no vertex appears in two distinct
edges. -/
def IsMatching (M : Finset Edge) : Prop :=
  ∀ e ∈ M, ∀ f ∈ M, e ≠ f → ¬ sharesVertex e f

instance (M : Finset Edge) : Decidable (IsMatching M) :=
  inferInstanceAs (Decidable (∀ e ∈ M, ∀ f ∈ M, e ≠ f → ¬ sharesVertex e f))

/-- An abstract maximum-cardinality matching solver (the external
`nx.max_weight_matching(·, maxcardinality=True)` collaborator). -/
abbrev Oracle := Finset Edge → Finset Edge

/-- The oracle returns a subset of the edges it is given (a matching of
a graph consists of edges of that graph). -/
def OracleSub (oracle : Oracle) : Prop := ∀ E, oracle E ⊆ E

/-- The oracle always returns a valid matching. -/
def OracleMatching (oracle : Oracle) : Prop := ∀ E, IsMatching (oracle E)

/-- The oracle returns a matching of maximum cardinality. -/
def OracleMax (oracle : Oracle) : Prop :=
  ∀ E N, N ⊆ E → IsMatching N → N.card ≤ (oracle E).card

/-- Non-overlap window planning:
`windows = [edges[i:i+budget] for i in range(0, len(edges), budget)]`. -/
def nonOverlapWindows (edges : List Edge) (budget : Nat) : List (List Edge) :=
  (List.range ((edges.length + budget - 1) / budget)).map
    fun k => (edges.drop (k * budget)).take budget

/-- Overlap window planning:
`step = max(1, budget // 2)`;
`windows = [edges[i:i+budget] for i in range(0, len(edges), step)]`. -/
def overlapWindows (edges : List Edge) (budget : Nat) : List (List Edge) :=
  let step := max 1 (budget / 2)
  (List.range ((edges.length + step - 1) / step)).map
    fun k => (edges.drop (k * step)).take budget

/-- Window planning as in `streaming_matching` lines 104-109. -/
def planWindows (edges : List Edge) (budget : Nat) (overlap : Bool) :
    List (List Edge) :=
  if overlap then overlapWindows edges budget else nonOverlapWindows edges budget

/-- Result of the inner `for window in windows` loop of one pass:
the final matching `M`, the `improved` flag, and the trace of values of
`M` observed immediately after each processed window (a window at which
the loop `break`s on `avail <= 0` is not processed and contributes no
entry). -/
structure WinResult where
  M : Finset Edge
  improved : Bool
  trace : List (Finset Edge)
  deriving DecidableEq

/-- The inner window loop of `streaming_matching` (lines 116-131):
per window, `avail = budget - |M|`; break if `avail <= 0`; otherwise
`block = window[:avail]`, solve `M ∪ block`, and augment when the new
matching is strictly larger. -/
def runWindows (oracle : Oracle) (budget : Nat) :
    List (List Edge) → Finset Edge → Bool → WinResult
  | [], M, improved => ⟨M, improved, []⟩
  | w :: ws, M, improved =>
    if budget ≤ M.card then ⟨M, improved, []⟩
    else
      let block := w.take (budget - M.card)
      let newMatch := oracle (M ∪ block.toFinset)
      if M.card < newMatch.card then
        let r := runWindows oracle budget ws newMatch true
        ⟨r.M, r.improved, newMatch :: r.trace⟩
      else
        let r := runWindows oracle budget ws M improved
        ⟨r.M, r.improved, M :: r.trace⟩

/-- Result of the pass loop: final matching, full trace of matchings
after each processed window across all executed passes, and the number
of passes actually executed. -/
structure RunResult where
  M : Finset Edge
  trace : List (Finset Edge)
  passes : Nat
  deriving DecidableEq

/-- The pass loop of `streaming_matching` (lines 112-139).  Arguments:
passes remaining, next shuffle-call index, current edge order, current
window list, current matching.  On an improving pass with
`shuffle and not overlap`, the edges are re-shuffled and the windows
rebuilt before the next pass (lines 137-139). -/
def runPasses (oracle : Oracle) (shuf : Nat → List Edge → List Edge)
    (budget : Nat) (shuffle overlap : Bool) :
    Nat → Nat → List Edge → List (List Edge) → Finset Edge → RunResult
  | 0, _, _, _, M => ⟨M, [], 0⟩
  | n + 1, k, edges, windows, M =>
    let r := runWindows oracle budget windows M false
    if r.improved then
      if shuffle && !overlap then
        let edges' := shuf k edges
        let res := runPasses oracle shuf budget shuffle overlap n (k + 1)
          edges' (nonOverlapWindows edges' budget) r.M
        ⟨res.M, r.trace ++ res.trace, res.passes + 1⟩
      else
        let res := runPasses oracle shuf budget shuffle overlap n k
          edges windows r.M
        ⟨res.M, r.trace ++ res.trace, res.passes + 1⟩
    else
      ⟨r.M, r.trace, 1⟩

/-- `streaming_matching` (lines 96-143), returning the full run result:
shuffle the edge list once if requested (shuffle call 0), plan the
windows, then run the pass loop starting from the empty matching. -/
def streamingRun (oracle : Oracle) (shuf : Nat → List Edge → List Edge)
    (edges : List Edge) (budget maxPasses : Nat) (shuffle overlap : Bool) :
    RunResult :=
  let edges1 := if shuffle then shuf 0 edges else edges
  let windows := planWindows edges1 budget overlap
  runPasses oracle shuf budget shuffle overlap maxPasses 1 edges1 windows ∅

/-- The return value `alg = len(M)` of `streaming_matching`. -/
def streaming_matching (oracle : Oracle) (shuf : Nat → List Edge → List Edge)
    (edges : List Edge) (budget maxPasses : Nat) (shuffle overlap : Bool) :
    Nat :=
  (streamingRun oracle shuf edges budget maxPasses shuffle overlap).M.card

/-- `compute_optimal_matching` (lines 87-94): solve the whole edge set
in core and return the optimal size `opt`. -/
def compute_optimal_matching (oracle : Oracle) (edges : List Edge) : Nat :=
  (oracle edges.toFinset).card

/-- `get_acc` (lines 145-156): `acc = alg / opt if opt > 0 else 1.0`,
with exact rational arithmetic in place of Python floats. -/
def get_acc (oracle : Oracle) (shuf : Nat → List Edge → List Edge)
    (edges : List Edge) (budget maxPasses : Nat) (shuffle overlap : Bool) :
    ℚ :=
  let opt := compute_optimal_matching oracle edges
  let alg := streaming_matching oracle shuf edges budget maxPasses shuffle overlap
  if 0 < opt then (alg : ℚ) / (opt : ℚ) else 1

/-- The identity shuffle sequence (used to instantiate runs that do not
shuffle, and as a concrete injected randomness source). -/
def shufId : Nat → List Edge → List Edge := fun _ l => l

/-- Fold that keeps the largest matching seen so far. -/
def bestMatching (init : Finset Edge) (l : List (Finset Edge)) : Finset Edge :=
  l.foldl (fun best S => if IsMatching S ∧ best.card < S.card then S else best) init

/-- A linear order on edges (lexicographic), used only to list the
subsets of a finite edge set canonically. -/
def edgeLE (e f : Edge) : Prop := e.1 < f.1 ∨ (e.1 = f.1 ∧ e.2 ≤ f.2)

instance : DecidableRel edgeLE := fun e f =>
  inferInstanceAs (Decidable (e.1 < f.1 ∨ (e.1 = f.1 ∧ e.2 ≤ f.2)))

instance : IsTrans Edge edgeLE :=
  ⟨fun _ _ _ h1 h2 => by unfold edgeLE at *; omega⟩

instance : IsAntisymm Edge edgeLE :=
  ⟨fun e f h1 h2 => by
    unfold edgeLE at *
    have : e.1 = f.1 ∧ e.2 = f.2 := by omega
    exact Prod.ext this.1 this.2⟩

instance : IsTotal Edge edgeLE :=
  ⟨fun _ _ => by unfold edgeLE; omega⟩

/-- Canonical sorted list of the elements of a multiset of edges
(insertion sort, so that it evaluates by structural recursion). -/
def sortEdges (s : Multiset Edge) : List Edge :=
  Quot.liftOn s (fun l => l.insertionSort edgeLE) fun _ _ h =>
    List.eq_of_perm_of_sorted
      ((List.perm_insertionSort _ _).trans (h.trans (List.perm_insertionSort _ _).symm))
      (List.sorted_insertionSort _ _) (List.sorted_insertionSort _ _)

/-- Canonical element list of a finite edge set. -/
def edgeList (E : Finset Edge) : List Edge := sortEdges E.val

/-- Concrete executable maximum-cardinality matching oracle: brute force
over all subsets of the edge set, enumerated as sublists of the sorted
element list. -/
def maxMatching (E : Finset Edge) : Finset Edge :=
  bestMatching ∅ ((edgeList E).sublists.map List.toFinset)

/-- The pass loop specialised to a fixed window list: no re-shuffling
and no window rebuilding between passes.  In overlap mode the pass loop
of `streaming_matching` coincides with this function. -/
def runPassesFixed (o : Oracle) (b : Nat) :
    Nat → List (List Edge) → Finset Edge → RunResult
  | 0, _, M => ⟨M, [], 0⟩
  | n + 1, windows, M =>
    let r := runWindows o b windows M false
    if r.improved then
      let res := runPassesFixed o b n windows r.M
      ⟨res.M, r.trace ++ res.trace, res.passes + 1⟩
    else
      ⟨r.M, r.trace, 1⟩

/-- A second injected randomness source, agreeing with `shufId` on its
first call but different afterwards (it reverses the list). -/
def shufAlt : Nat → List Edge → List Edge :=
  fun k l => if k = 0 then l else l.reverse


/-! ### Properties of the concrete oracle `maxMatching` -/

theorem bestMatching_step (init S : Finset Edge) (t : List (Finset Edge)) :
    bestMatching init (S :: t)
      = bestMatching (if IsMatching S ∧ init.card < S.card then S else init) t := rfl

theorem bestMatching_mem (l : List (Finset Edge)) (init : Finset Edge) :
    bestMatching init l = init ∨ bestMatching init l ∈ l := by
  induction l generalizing init with
  | nil => left; rfl
  | cons S t ih =>
    rw [bestMatching_step]
    by_cases hc : IsMatching S ∧ init.card < S.card
    · rw [if_pos hc]
      rcases ih S with h1 | h1
      · right; rw [h1]; exact List.mem_cons_self _ _
      · right; exact List.mem_cons_of_mem _ h1
    · rw [if_neg hc]
      rcases ih init with h1 | h1
      · left; exact h1
      · right; exact List.mem_cons_of_mem _ h1

theorem bestMatching_isMatching (l : List (Finset Edge)) (init : Finset Edge)
    (h : IsMatching init) : IsMatching (bestMatching init l) := by
  induction l generalizing init with
  | nil => exact h
  | cons S t ih =>
    rw [bestMatching_step]
    by_cases hc : IsMatching S ∧ init.card < S.card
    · rw [if_pos hc]; exact ih _ hc.1
    · rw [if_neg hc]; exact ih _ h

theorem card_le_bestMatching (l : List (Finset Edge)) (init : Finset Edge) :
    init.card ≤ (bestMatching init l).card := by
  induction l generalizing init with
  | nil => exact le_rfl
  | cons S t ih =>
    rw [bestMatching_step]
    by_cases hc : IsMatching S ∧ init.card < S.card
    · rw [if_pos hc]; exact le_trans (le_of_lt hc.2) (ih S)
    · rw [if_neg hc]; exact ih init

theorem bestMatching_ge (l : List (Finset Edge)) (init S : Finset Edge)
    (hm : IsMatching S) (hS : S ∈ l) : S.card ≤ (bestMatching init l).card := by
  induction l generalizing init with
  | nil => cases hS
  | cons T t ih =>
    rw [bestMatching_step]
    rcases List.mem_cons.1 hS with rfl | hS'
    · by_cases hc : IsMatching S ∧ init.card < S.card
      · rw [if_pos hc]; exact card_le_bestMatching t S
      · rw [if_neg hc]
        have hle : S.card ≤ init.card := by
          rcases Nat.lt_or_ge init.card S.card with hlt | hge
          · exact absurd ⟨hm, hlt⟩ hc
          · exact hge
        exact le_trans hle (card_le_bestMatching t init)
    · by_cases hc : IsMatching T ∧ init.card < T.card
      · rw [if_pos hc]; exact ih T hS'
      · rw [if_neg hc]; exact ih init hS'

theorem mem_sortEdges (s : Multiset Edge) (e : Edge) :
    e ∈ sortEdges s ↔ e ∈ s := by
  induction s using Quot.inductionOn with
  | h l =>
    show e ∈ (l.insertionSort edgeLE) ↔ _
    rw [(List.perm_insertionSort edgeLE l).mem_iff]
    exact Iff.rfl

theorem mem_edgeList (E : Finset Edge) (e : Edge) :
    e ∈ edgeList E ↔ e ∈ E := mem_sortEdges E.val e

theorem maxMatching_sub : OracleSub maxMatching := by
  intro E
  rcases bestMatching_mem ((edgeList E).sublists.map List.toFinset) ∅ with h | h
  · rw [maxMatching, h]; exact Finset.empty_subset E
  · rcases List.mem_map.1 h with ⟨l, hl, hlt⟩
    intro e he
    rw [maxMatching] at he
    rw [← hlt] at he
    have hsub : l.Sublist (edgeList E) := List.mem_sublists.1 hl
    have : e ∈ edgeList E := hsub.subset (List.mem_toFinset.1 he)
    exact (mem_edgeList E e).1 this

theorem empty_isMatching : IsMatching (∅ : Finset Edge) := by
  intro e he; cases Finset.not_mem_empty e he

theorem maxMatching_matching : OracleMatching maxMatching := by
  intro E
  exact bestMatching_isMatching _ _ empty_isMatching

theorem maxMatching_max : OracleMax maxMatching := by
  intro E N hNE hNm
  have hfilt : ((edgeList E).filter fun e => decide (e ∈ N)).toFinset = N := by
    ext e
    rw [List.mem_toFinset, List.mem_filter]
    constructor
    · rintro ⟨_, h2⟩; exact of_decide_eq_true h2
    · intro h
      exact ⟨(mem_edgeList E e).2 (hNE h), decide_eq_true h⟩
  have hmem : N ∈ (edgeList E).sublists.map List.toFinset := by
    rw [List.mem_map]
    exact ⟨_, List.mem_sublists.2 (List.filter_sublist _), hfilt⟩
  exact bestMatching_ge _ _ _ hNm hmem

/-! ### Step equations and invariants of the window loop -/

/-- One augmentation step either keeps `M` or strictly enlarges it. -/
def StepRel (A B : Finset Edge) : Prop := A = B ∨ A.card < B.card

theorem runWindows_nil (o : Oracle) (b : Nat) (M : Finset Edge) (i : Bool) :
    runWindows o b [] M i = ⟨M, i, []⟩ := rfl

theorem runWindows_break (o : Oracle) (b : Nat) (w : List Edge)
    (ws : List (List Edge)) (M : Finset Edge) (i : Bool) (h : b ≤ M.card) :
    runWindows o b (w :: ws) M i = ⟨M, i, []⟩ := by
  simp only [runWindows, if_pos h]

theorem runWindows_aug (o : Oracle) (b : Nat) (w : List Edge)
    (ws : List (List Edge)) (M : Finset Edge) (i : Bool) (h1 : ¬ b ≤ M.card)
    (h2 : M.card < (o (M ∪ (w.take (b - M.card)).toFinset)).card) :
    runWindows o b (w :: ws) M i =
      ⟨(runWindows o b ws (o (M ∪ (w.take (b - M.card)).toFinset)) true).M,
       (runWindows o b ws (o (M ∪ (w.take (b - M.card)).toFinset)) true).improved,
       o (M ∪ (w.take (b - M.card)).toFinset)
         :: (runWindows o b ws (o (M ∪ (w.take (b - M.card)).toFinset)) true).trace⟩ := by
  simp only [runWindows, if_neg h1, if_pos h2]

theorem runWindows_noaug (o : Oracle) (b : Nat) (w : List Edge)
    (ws : List (List Edge)) (M : Finset Edge) (i : Bool) (h1 : ¬ b ≤ M.card)
    (h2 : ¬ M.card < (o (M ∪ (w.take (b - M.card)).toFinset)).card) :
    runWindows o b (w :: ws) M i =
      ⟨(runWindows o b ws M i).M, (runWindows o b ws M i).improved,
       M :: (runWindows o b ws M i).trace⟩ := by
  simp only [runWindows, if_neg h1, if_neg h2]

theorem runWindows_getLastD (o : Oracle) (b : Nat) (ws : List (List Edge)) :
    ∀ (M : Finset Edge) (i : Bool),
      (runWindows o b ws M i).trace.getLastD M = (runWindows o b ws M i).M := by
  induction ws with
  | nil => intro M i; rfl
  | cons w t ih =>
    intro M i
    by_cases h1 : b ≤ M.card
    · rw [runWindows_break o b w t M i h1]; rfl
    · by_cases h2 : M.card < (o (M ∪ (w.take (b - M.card)).toFinset)).card
      · rw [runWindows_aug o b w t M i h1 h2]
        simp only [List.getLastD_cons]
        exact ih _ _
      · rw [runWindows_noaug o b w t M i h1 h2]
        simp only [List.getLastD_cons]
        exact ih _ _

theorem runWindows_chain (o : Oracle) (b : Nat) (ws : List (List Edge)) :
    ∀ (M : Finset Edge) (i : Bool),
      List.Chain' StepRel (M :: (runWindows o b ws M i).trace) := by
  induction ws with
  | nil => intro M i; exact List.chain'_singleton M
  | cons w t ih =>
    intro M i
    by_cases h1 : b ≤ M.card
    · rw [runWindows_break o b w t M i h1]; exact List.chain'_singleton M
    · by_cases h2 : M.card < (o (M ∪ (w.take (b - M.card)).toFinset)).card
      · rw [runWindows_aug o b w t M i h1 h2]
        exact List.chain'_cons.2 ⟨Or.inr h2, ih _ _⟩
      · rw [runWindows_noaug o b w t M i h1 h2]
        exact List.chain'_cons.2 ⟨Or.inl rfl, ih _ _⟩

theorem runWindows_budget (o : Oracle) (hsub : OracleSub o) (b : Nat)
    (ws : List (List Edge)) :
    ∀ (M : Finset Edge) (i : Bool), M.card ≤ b →
      (∀ X ∈ (runWindows o b ws M i).trace, X.card ≤ b)
        ∧ (runWindows o b ws M i).M.card ≤ b := by
  induction ws with
  | nil => intro M i hM; exact ⟨by simp [runWindows_nil], hM⟩
  | cons w t ih =>
    intro M i hM
    by_cases h1 : b ≤ M.card
    · rw [runWindows_break o b w t M i h1]
      exact ⟨by simp, hM⟩
    · by_cases h2 : M.card < (o (M ∪ (w.take (b - M.card)).toFinset)).card
      · rw [runWindows_aug o b w t M i h1 h2]
        have hnm : (o (M ∪ (w.take (b - M.card)).toFinset)).card ≤ b := by
          have hc1 : (o (M ∪ (w.take (b - M.card)).toFinset)).card
              ≤ (M ∪ (w.take (b - M.card)).toFinset).card :=
            Finset.card_le_card (hsub _)
          have hc2 : (M ∪ (w.take (b - M.card)).toFinset).card
              ≤ M.card + (w.take (b - M.card)).toFinset.card :=
            Finset.card_union_le _ _
          have hc3 : (w.take (b - M.card)).toFinset.card ≤ (w.take (b - M.card)).length :=
            List.toFinset_card_le _
          have hc4 : (w.take (b - M.card)).length ≤ b - M.card := by
            rw [List.length_take]; omega
          omega
        rcases ih _ true hnm with ⟨htr, hfin⟩
        refine ⟨?_, hfin⟩
        intro X hX
        rcases List.mem_cons.1 hX with rfl | hX'
        · exact hnm
        · exact htr X hX'
      · rw [runWindows_noaug o b w t M i h1 h2]
        rcases ih M i hM with ⟨htr, hfin⟩
        refine ⟨?_, hfin⟩
        intro X hX
        rcases List.mem_cons.1 hX with rfl | hX'
        · exact hM
        · exact htr X hX'

theorem runWindows_matching (o : Oracle) (hm : OracleMatching o) (b : Nat)
    (ws : List (List Edge)) :
    ∀ (M : Finset Edge) (i : Bool), IsMatching M →
      (∀ X ∈ (runWindows o b ws M i).trace, IsMatching X)
        ∧ IsMatching (runWindows o b ws M i).M := by
  induction ws with
  | nil => intro M i hM; exact ⟨by simp [runWindows_nil], hM⟩
  | cons w t ih =>
    intro M i hM
    by_cases h1 : b ≤ M.card
    · rw [runWindows_break o b w t M i h1]; exact ⟨by simp, hM⟩
    · by_cases h2 : M.card < (o (M ∪ (w.take (b - M.card)).toFinset)).card
      · rw [runWindows_aug o b w t M i h1 h2]
        rcases ih _ true (hm _) with ⟨htr, hfin⟩
        refine ⟨?_, hfin⟩
        intro X hX
        rcases List.mem_cons.1 hX with rfl | hX'
        · exact hm _
        · exact htr X hX'
      · rw [runWindows_noaug o b w t M i h1 h2]
        rcases ih M i hM with ⟨htr, hfin⟩
        refine ⟨?_, hfin⟩
        intro X hX
        rcases List.mem_cons.1 hX with rfl | hX'
        · exact hM
        · exact htr X hX'

theorem runWindows_subset (o : Oracle) (hsub : OracleSub o) (b : Nat)
    (S : Finset Edge) (ws : List (List Edge)) :
    ∀ (M : Finset Edge) (i : Bool), (∀ w ∈ ws, ∀ e ∈ w, e ∈ S) → M ⊆ S →
      (∀ X ∈ (runWindows o b ws M i).trace, X ⊆ S)
        ∧ (runWindows o b ws M i).M ⊆ S := by
  induction ws with
  | nil => intro M i _ hM; exact ⟨by simp [runWindows_nil], hM⟩
  | cons w t ih =>
    intro M i hws hM
    have hw : ∀ e ∈ w, e ∈ S := hws w (List.mem_cons_self _ _)
    have ht : ∀ w' ∈ t, ∀ e ∈ w', e ∈ S :=
      fun w' hw' => hws w' (List.mem_cons_of_mem _ hw')
    by_cases h1 : b ≤ M.card
    · rw [runWindows_break o b w t M i h1]; exact ⟨by simp, hM⟩
    · by_cases h2 : M.card < (o (M ∪ (w.take (b - M.card)).toFinset)).card
      · rw [runWindows_aug o b w t M i h1 h2]
        have hnm : o (M ∪ (w.take (b - M.card)).toFinset) ⊆ S := by
          intro e he
          have he2 := hsub _ he
          rcases Finset.mem_union.1 he2 with heM | heB
          · exact hM heM
          · exact hw e ((List.take_sublist _ _).subset (List.mem_toFinset.1 heB))
        rcases ih _ true ht hnm with ⟨htr, hfin⟩
        refine ⟨?_, hfin⟩
        intro X hX
        rcases List.mem_cons.1 hX with rfl | hX'
        · exact hnm
        · exact htr X hX'
      · rw [runWindows_noaug o b w t M i h1 h2]
        rcases ih M i ht hM with ⟨htr, hfin⟩
        refine ⟨?_, hfin⟩
        intro X hX
        rcases List.mem_cons.1 hX with rfl | hX'
        · exact hM
        · exact htr X hX'

theorem runWindows_mono (o : Oracle) (b : Nat) (ws : List (List Edge)) :
    ∀ (M : Finset Edge) (i : Bool), M.card ≤ (runWindows o b ws M i).M.card := by
  induction ws with
  | nil => intro M i; exact le_rfl
  | cons w t ih =>
    intro M i
    by_cases h1 : b ≤ M.card
    · rw [runWindows_break o b w t M i h1]
    · by_cases h2 : M.card < (o (M ∪ (w.take (b - M.card)).toFinset)).card
      · rw [runWindows_aug o b w t M i h1 h2]
        exact le_trans (le_of_lt h2) (ih _ _)
      · rw [runWindows_noaug o b w t M i h1 h2]
        exact ih _ _

theorem runWindows_improved_true (o : Oracle) (b : Nat) (ws : List (List Edge)) :
    ∀ (M : Finset Edge), (runWindows o b ws M true).improved = true := by
  induction ws with
  | nil => intro M; rfl
  | cons w t ih =>
    intro M
    by_cases h1 : b ≤ M.card
    · rw [runWindows_break o b w t M true h1]
    · by_cases h2 : M.card < (o (M ∪ (w.take (b - M.card)).toFinset)).card
      · rw [runWindows_aug o b w t M true h1 h2]
        exact ih _
      · rw [runWindows_noaug o b w t M true h1 h2]
        exact ih _

/-! ### Step equations and invariants of the pass loop -/

theorem getLastD_append (t1 t2 : List (Finset Edge)) (d : Finset Edge) :
    (t1 ++ t2).getLastD d = t2.getLastD (t1.getLastD d) := by
  induction t1 generalizing d with
  | nil => rfl
  | cons a t ih =>
    rw [List.cons_append, List.getLastD_cons, List.getLastD_cons]
    exact ih a

theorem chain_glue (R : Finset Edge → Finset Edge → Prop) (t1 t2 : List (Finset Edge)) :
    ∀ M : Finset Edge, List.Chain' R (M :: t1) → List.Chain' R (t1.getLastD M :: t2) →
      List.Chain' R (M :: (t1 ++ t2)) := by
  induction t1 with
  | nil => intro M _ h2; exact h2
  | cons a t ih =>
    intro M h1 h2
    rw [List.getLastD_cons] at h2
    rw [List.cons_append]
    rcases List.chain'_cons.1 h1 with ⟨hMa, h1'⟩
    exact List.chain'_cons.2 ⟨hMa, ih a h1' h2⟩

theorem runPasses_zero (o : Oracle) (shuf : Nat → List Edge → List Edge)
    (b : Nat) (sh ov : Bool) (k : Nat) (edges : List Edge)
    (windows : List (List Edge)) (M : Finset Edge) :
    runPasses o shuf b sh ov 0 k edges windows M = ⟨M, [], 0⟩ := rfl

theorem runPasses_succ_stop (o : Oracle) (shuf : Nat → List Edge → List Edge)
    (b : Nat) (sh ov : Bool) (n k : Nat) (edges : List Edge)
    (windows : List (List Edge)) (M : Finset Edge)
    (h : (runWindows o b windows M false).improved = false) :
    runPasses o shuf b sh ov (n + 1) k edges windows M
      = ⟨(runWindows o b windows M false).M, (runWindows o b windows M false).trace, 1⟩ := by
  simp only [runPasses, h, Bool.false_eq_true, if_false]

theorem runPasses_succ_rebuild (o : Oracle) (shuf : Nat → List Edge → List Edge)
    (b : Nat) (sh ov : Bool) (n k : Nat) (edges : List Edge)
    (windows : List (List Edge)) (M : Finset Edge)
    (h : (runWindows o b windows M false).improved = true)
    (hmode : (sh && !ov) = true) :
    runPasses o shuf b sh ov (n + 1) k edges windows M
      = ⟨(runPasses o shuf b sh ov n (k + 1) (shuf k edges)
            (nonOverlapWindows (shuf k edges) b) (runWindows o b windows M false).M).M,
         (runWindows o b windows M false).trace
           ++ (runPasses o shuf b sh ov n (k + 1) (shuf k edges)
                (nonOverlapWindows (shuf k edges) b) (runWindows o b windows M false).M).trace,
         (runPasses o shuf b sh ov n (k + 1) (shuf k edges)
            (nonOverlapWindows (shuf k edges) b) (runWindows o b windows M false).M).passes
           + 1⟩ := by
  simp only [runPasses, h, hmode, if_true]

theorem runPasses_succ_keep (o : Oracle) (shuf : Nat → List Edge → List Edge)
    (b : Nat) (sh ov : Bool) (n k : Nat) (edges : List Edge)
    (windows : List (List Edge)) (M : Finset Edge)
    (h : (runWindows o b windows M false).improved = true)
    (hmode : (sh && !ov) = false) :
    runPasses o shuf b sh ov (n + 1) k edges windows M
      = ⟨(runPasses o shuf b sh ov n k edges windows (runWindows o b windows M false).M).M,
         (runWindows o b windows M false).trace
           ++ (runPasses o shuf b sh ov n k edges windows
                (runWindows o b windows M false).M).trace,
         (runPasses o shuf b sh ov n k edges windows
            (runWindows o b windows M false).M).passes + 1⟩ := by
  simp only [runPasses, h, hmode, Bool.false_eq_true, if_true, if_false]

theorem mem_nonOverlapWindows (edges : List Edge) (b : Nat) :
    ∀ w ∈ nonOverlapWindows edges b, ∀ e ∈ w, e ∈ edges := by
  intro w hw e he
  rcases List.mem_map.1 hw with ⟨k, _, rfl⟩
  exact (List.drop_sublist _ _).subset ((List.take_sublist _ _).subset he)

theorem mem_overlapWindows (edges : List Edge) (b : Nat) :
    ∀ w ∈ overlapWindows edges b, ∀ e ∈ w, e ∈ edges := by
  intro w hw e he
  rcases List.mem_map.1 hw with ⟨k, _, rfl⟩
  exact (List.drop_sublist _ _).subset ((List.take_sublist _ _).subset he)

theorem mem_planWindows (edges : List Edge) (b : Nat) (ov : Bool) :
    ∀ w ∈ planWindows edges b ov, ∀ e ∈ w, e ∈ edges := by
  intro w hw
  rcases ov with _ | _
  · exact mem_nonOverlapWindows edges b w hw
  · exact mem_overlapWindows edges b w hw

theorem runPasses_getLastD (o : Oracle) (shuf : Nat → List Edge → List Edge)
    (b : Nat) (sh ov : Bool) (n : Nat) :
    ∀ (k : Nat) (edges : List Edge) (windows : List (List Edge)) (M : Finset Edge),
      (runPasses o shuf b sh ov n k edges windows M).trace.getLastD M
        = (runPasses o shuf b sh ov n k edges windows M).M := by
  induction n with
  | zero => intro k edges windows M; rfl
  | succ n ih =>
    intro k edges windows M
    cases himp : (runWindows o b windows M false).improved with
    | false =>
      rw [runPasses_succ_stop o shuf b sh ov n k edges windows M himp]
      exact runWindows_getLastD o b windows M false
    | true =>
      cases hmode : (sh && !ov) with
      | false =>
        rw [runPasses_succ_keep o shuf b sh ov n k edges windows M himp hmode]
        rw [getLastD_append, runWindows_getLastD]
        exact ih _ _ _ _
      | true =>
        rw [runPasses_succ_rebuild o shuf b sh ov n k edges windows M himp hmode]
        rw [getLastD_append, runWindows_getLastD]
        exact ih _ _ _ _

theorem runPasses_chain (o : Oracle) (shuf : Nat → List Edge → List Edge)
    (b : Nat) (sh ov : Bool) (n : Nat) :
    ∀ (k : Nat) (edges : List Edge) (windows : List (List Edge)) (M : Finset Edge),
      List.Chain' StepRel (M :: (runPasses o shuf b sh ov n k edges windows M).trace) := by
  induction n with
  | zero => intro k edges windows M; exact List.chain'_singleton M
  | succ n ih =>
    intro k edges windows M
    cases himp : (runWindows o b windows M false).improved with
    | false =>
      rw [runPasses_succ_stop o shuf b sh ov n k edges windows M himp]
      exact runWindows_chain o b windows M false
    | true =>
      cases hmode : (sh && !ov) with
      | false =>
        rw [runPasses_succ_keep o shuf b sh ov n k edges windows M himp hmode]
        refine chain_glue _ _ _ M (runWindows_chain o b windows M false) ?_
        rw [runWindows_getLastD]
        exact ih _ _ _ _
      | true =>
        rw [runPasses_succ_rebuild o shuf b sh ov n k edges windows M himp hmode]
        refine chain_glue _ _ _ M (runWindows_chain o b windows M false) ?_
        rw [runWindows_getLastD]
        exact ih _ _ _ _

theorem runPasses_budget (o : Oracle) (hsub : OracleSub o)
    (shuf : Nat → List Edge → List Edge) (b : Nat) (sh ov : Bool) (n : Nat) :
    ∀ (k : Nat) (edges : List Edge) (windows : List (List Edge)) (M : Finset Edge),
      M.card ≤ b →
      (∀ X ∈ (runPasses o shuf b sh ov n k edges windows M).trace, X.card ≤ b)
        ∧ (runPasses o shuf b sh ov n k edges windows M).M.card ≤ b := by
  induction n with
  | zero => intro k edges windows M hM; exact ⟨by simp [runPasses_zero], hM⟩
  | succ n ih =>
    intro k edges windows M hM
    cases himp : (runWindows o b windows M false).improved with
    | false =>
      rw [runPasses_succ_stop o shuf b sh ov n k edges windows M himp]
      exact runWindows_budget o hsub b windows M false hM
    | true =>
      cases hmode : (sh && !ov) with
      | false =>
        rw [runPasses_succ_keep o shuf b sh ov n k edges windows M himp hmode]
        rcases runWindows_budget o hsub b windows M false hM with ⟨htr1, hfin1⟩
        rcases ih _ _ _ _ hfin1 with ⟨htr2, hfin2⟩
        refine ⟨?_, hfin2⟩
        intro X hX
        rcases List.mem_append.1 hX with hX' | hX'
        · exact htr1 X hX'
        · exact htr2 X hX'
      | true =>
        rw [runPasses_succ_rebuild o shuf b sh ov n k edges windows M himp hmode]
        rcases runWindows_budget o hsub b windows M false hM with ⟨htr1, hfin1⟩
        rcases ih _ _ _ _ hfin1 with ⟨htr2, hfin2⟩
        refine ⟨?_, hfin2⟩
        intro X hX
        rcases List.mem_append.1 hX with hX' | hX'
        · exact htr1 X hX'
        · exact htr2 X hX'

theorem runPasses_matching (o : Oracle) (hm : OracleMatching o)
    (shuf : Nat → List Edge → List Edge) (b : Nat) (sh ov : Bool) (n : Nat) :
    ∀ (k : Nat) (edges : List Edge) (windows : List (List Edge)) (M : Finset Edge),
      IsMatching M →
      (∀ X ∈ (runPasses o shuf b sh ov n k edges windows M).trace, IsMatching X)
        ∧ IsMatching (runPasses o shuf b sh ov n k edges windows M).M := by
  induction n with
  | zero => intro k edges windows M hM; exact ⟨by simp [runPasses_zero], hM⟩
  | succ n ih =>
    intro k edges windows M hM
    cases himp : (runWindows o b windows M false).improved with
    | false =>
      rw [runPasses_succ_stop o shuf b sh ov n k edges windows M himp]
      exact runWindows_matching o hm b windows M false hM
    | true =>
      cases hmode : (sh && !ov) with
      | false =>
        rw [runPasses_succ_keep o shuf b sh ov n k edges windows M himp hmode]
        rcases runWindows_matching o hm b windows M false hM with ⟨htr1, hfin1⟩
        rcases ih _ _ _ _ hfin1 with ⟨htr2, hfin2⟩
        refine ⟨?_, hfin2⟩
        intro X hX
        rcases List.mem_append.1 hX with hX' | hX'
        · exact htr1 X hX'
        · exact htr2 X hX'
      | true =>
        rw [runPasses_succ_rebuild o shuf b sh ov n k edges windows M himp hmode]
        rcases runWindows_matching o hm b windows M false hM with ⟨htr1, hfin1⟩
        rcases ih _ _ _ _ hfin1 with ⟨htr2, hfin2⟩
        refine ⟨?_, hfin2⟩
        intro X hX
        rcases List.mem_append.1 hX with hX' | hX'
        · exact htr1 X hX'
        · exact htr2 X hX'

theorem runPasses_subset (o : Oracle) (hsub : OracleSub o)
    (shuf : Nat → List Edge → List Edge)
    (hshuf : ∀ (k : Nat) (l : List Edge), ∀ e ∈ shuf k l, e ∈ l)
    (b : Nat) (sh ov : Bool) (S : Finset Edge) (n : Nat) :
    ∀ (k : Nat) (edges : List Edge) (windows : List (List Edge)) (M : Finset Edge),
      (∀ w ∈ windows, ∀ e ∈ w, e ∈ S) → (∀ e ∈ edges, e ∈ S) → M ⊆ S →
      (∀ X ∈ (runPasses o shuf b sh ov n k edges windows M).trace, X ⊆ S)
        ∧ (runPasses o shuf b sh ov n k edges windows M).M ⊆ S := by
  induction n with
  | zero => intro k edges windows M _ _ hM; exact ⟨by simp [runPasses_zero], hM⟩
  | succ n ih =>
    intro k edges windows M hwin hedges hM
    cases himp : (runWindows o b windows M false).improved with
    | false =>
      rw [runPasses_succ_stop o shuf b sh ov n k edges windows M himp]
      exact runWindows_subset o hsub b S windows M false hwin hM
    | true =>
      cases hmode : (sh && !ov) with
      | false =>
        rw [runPasses_succ_keep o shuf b sh ov n k edges windows M himp hmode]
        rcases runWindows_subset o hsub b S windows M false hwin hM with ⟨htr1, hfin1⟩
        rcases ih _ _ _ _ hwin hedges hfin1 with ⟨htr2, hfin2⟩
        refine ⟨?_, hfin2⟩
        intro X hX
        rcases List.mem_append.1 hX with hX' | hX'
        · exact htr1 X hX'
        · exact htr2 X hX'
      | true =>
        rw [runPasses_succ_rebuild o shuf b sh ov n k edges windows M himp hmode]
        rcases runWindows_subset o hsub b S windows M false hwin hM with ⟨htr1, hfin1⟩
        have hedges' : ∀ e ∈ shuf k edges, e ∈ S :=
          fun e he => hedges e (hshuf k edges e he)
        have hwin' : ∀ w ∈ nonOverlapWindows (shuf k edges) b, ∀ e ∈ w, e ∈ S :=
          fun w hw e he => hedges' e (mem_nonOverlapWindows _ _ w hw e he)
        rcases ih _ _ _ _ hwin' hedges' hfin1 with ⟨htr2, hfin2⟩
        refine ⟨?_, hfin2⟩
        intro X hX
        rcases List.mem_append.1 hX with hX' | hX'
        · exact htr1 X hX'
        · exact htr2 X hX'

theorem runPasses_mono (o : Oracle) (shuf : Nat → List Edge → List Edge)
    (b : Nat) (sh ov : Bool) (n : Nat) :
    ∀ (k : Nat) (edges : List Edge) (windows : List (List Edge)) (M : Finset Edge),
      M.card ≤ (runPasses o shuf b sh ov n k edges windows M).M.card := by
  induction n with
  | zero => intro k edges windows M; exact le_rfl
  | succ n ih =>
    intro k edges windows M
    cases himp : (runWindows o b windows M false).improved with
    | false =>
      rw [runPasses_succ_stop o shuf b sh ov n k edges windows M himp]
      exact runWindows_mono o b windows M false
    | true =>
      cases hmode : (sh && !ov) with
      | false =>
        rw [runPasses_succ_keep o shuf b sh ov n k edges windows M himp hmode]
        exact le_trans (runWindows_mono o b windows M false) (ih _ _ _ _)
      | true =>
        rw [runPasses_succ_rebuild o shuf b sh ov n k edges windows M himp hmode]
        exact le_trans (runWindows_mono o b windows M false) (ih _ _ _ _)

theorem runPasses_passes_le (o : Oracle) (shuf : Nat → List Edge → List Edge)
    (b : Nat) (sh ov : Bool) (n : Nat) :
    ∀ (k : Nat) (edges : List Edge) (windows : List (List Edge)) (M : Finset Edge),
      (runPasses o shuf b sh ov n k edges windows M).passes ≤ n := by
  induction n with
  | zero => intro k edges windows M; exact le_rfl
  | succ n ih =>
    intro k edges windows M
    cases himp : (runWindows o b windows M false).improved with
    | false =>
      rw [runPasses_succ_stop o shuf b sh ov n k edges windows M himp]
      exact Nat.succ_le_succ (Nat.zero_le n)
    | true =>
      cases hmode : (sh && !ov) with
      | false =>
        rw [runPasses_succ_keep o shuf b sh ov n k edges windows M himp hmode]
        exact Nat.succ_le_succ (ih _ _ _ _)
      | true =>
        rw [runPasses_succ_rebuild o shuf b sh ov n k edges windows M himp hmode]
        exact Nat.succ_le_succ (ih _ _ _ _)

theorem runPasses_stable (o : Oracle) (shuf : Nat → List Edge → List Edge)
    (b : Nat) (sh ov : Bool) (n : Nat) :
    ∀ (k : Nat) (edges : List Edge) (windows : List (List Edge)) (M : Finset Edge),
      (runPasses o shuf b sh ov n k edges windows M).passes < n →
      ∀ m : Nat, n ≤ m →
        runPasses o shuf b sh ov m k edges windows M
          = runPasses o shuf b sh ov n k edges windows M := by
  induction n with
  | zero => intro k edges windows M h; cases Nat.not_lt_zero _ h
  | succ n ih =>
    intro k edges windows M hlt m hm
    obtain ⟨m', rfl⟩ : ∃ m', m = m' + 1 :=
      ⟨m - 1, by omega⟩
    have hm' : n ≤ m' := by omega
    cases himp : (runWindows o b windows M false).improved with
    | false =>
      rw [runPasses_succ_stop o shuf b sh ov n k edges windows M himp,
        runPasses_succ_stop o shuf b sh ov m' k edges windows M himp]
    | true =>
      cases hmode : (sh && !ov) with
      | false =>
        rw [runPasses_succ_keep o shuf b sh ov n k edges windows M himp hmode] at hlt ⊢
        rw [runPasses_succ_keep o shuf b sh ov m' k edges windows M himp hmode]
        have hlt' : (runPasses o shuf b sh ov n k edges windows
            (runWindows o b windows M false).M).passes < n := by
          simp only at hlt
          omega
        rw [ih _ _ _ _ hlt' m' hm']
      | true =>
        rw [runPasses_succ_rebuild o shuf b sh ov n k edges windows M himp hmode] at hlt ⊢
        rw [runPasses_succ_rebuild o shuf b sh ov m' k edges windows M himp hmode]
        have hlt' : (runPasses o shuf b sh ov n (k + 1) (shuf k edges)
            (nonOverlapWindows (shuf k edges) b)
            (runWindows o b windows M false).M).passes < n := by
          simp only at hlt
          omega
        rw [ih _ _ _ _ hlt' m' hm']

/-! ### Shared consequences -/

theorem perm_toFinset (l1 l2 : List Edge) (h : l1.Perm l2) :
    l1.toFinset = l2.toFinset :=
  Finset.ext fun a => by rw [List.mem_toFinset, List.mem_toFinset, h.mem_iff]

/-- Domination: the streaming matching is assembled out of edges of the
input sequence only, hence its size is bounded by the optimum of the
full graph. -/
theorem streaming_le_opt (oracle : Oracle) (hsub : OracleSub oracle)
    (hm : OracleMatching oracle) (hmax : OracleMax oracle)
    (shuf : Nat → List Edge → List Edge)
    (hshuf : ∀ (k : Nat) (l : List Edge), ∀ e ∈ shuf k l, e ∈ l)
    (edges : List Edge) (budget maxPasses : Nat) (shuffle overlap : Bool) :
    streaming_matching oracle shuf edges budget maxPasses shuffle overlap
      ≤ compute_optimal_matching oracle edges := by
  have hedges1 : ∀ e ∈ (if shuffle then shuf 0 edges else edges), e ∈ edges.toFinset := by
    intro e he
    rw [List.mem_toFinset]
    cases shuffle with
    | false => exact he
    | true => exact hshuf 0 edges e he
  have hwin : ∀ w ∈ planWindows (if shuffle then shuf 0 edges else edges) budget overlap,
      ∀ e ∈ w, e ∈ edges.toFinset :=
    fun w hw e he => hedges1 e (mem_planWindows _ _ _ w hw e he)
  have hrun := runPasses_subset oracle hsub shuf hshuf budget shuffle overlap
    edges.toFinset maxPasses 1 (if shuffle then shuf 0 edges else edges)
    (planWindows (if shuffle then shuf 0 edges else edges) budget overlap) ∅
    hwin hedges1 (Finset.empty_subset _)
  have hmatch := runPasses_matching oracle hm shuf budget shuffle overlap maxPasses 1
    (if shuffle then shuf 0 edges else edges)
    (planWindows (if shuffle then shuf 0 edges else edges) budget overlap) ∅
    empty_isMatching
  exact hmax edges.toFinset _ hrun.2 hmatch.2

/-! ### The claims -/

/-- C1: for every edge sequence, budget ≥ 1, max_passes ≥ 1 and any
shuffle/overlap settings, assuming the oracle only returns edges of the
graph it is given, the working matching `M` satisfies `|M| ≤ budget` at
every point of `streaming_matching` (after every processed window, so in
particular immediately after each augmentation), and the returned size
`alg` is at most `budget`. -/
theorem C1_budget_invariant (oracle : Oracle) (hsub : OracleSub oracle)
    (shuf : Nat → List Edge → List Edge) (edges : List Edge)
    (budget maxPasses : Nat) (hb : 1 ≤ budget) (hp : 1 ≤ maxPasses)
    (shuffle overlap : Bool) :
    (∀ X ∈ (streamingRun oracle shuf edges budget maxPasses shuffle overlap).trace,
        X.card ≤ budget)
      ∧ streaming_matching oracle shuf edges budget maxPasses shuffle overlap ≤ budget :=
  runPasses_budget oracle hsub shuf budget shuffle overlap maxPasses 1
    (if shuffle then shuf 0 edges else edges)
    (planWindows (if shuffle then shuf 0 edges else edges) budget overlap) ∅
    (by simp)

/-- C1 witness: concrete instantiation with the brute-force oracle. -/
theorem C1_budget_invariant_witness :
    (∀ X ∈ (streamingRun maxMatching shufId [(1,2),(2,3),(3,4)] 1 2 false false).trace,
        X.card ≤ 1)
      ∧ streaming_matching maxMatching shufId [(1,2),(2,3),(3,4)] 1 2 false false ≤ 1 :=
  C1_budget_invariant maxMatching maxMatching_sub shufId [(1,2),(2,3),(3,4)] 1 2
    (by decide) (by decide) false false

/-- C2: assuming the oracle always returns a valid matching, the working
set `M` at every point of `streaming_matching` (and so the final `M`) is
a valid matching: no vertex appears in two distinct edges of `M`. -/
theorem C2_matching_validity (oracle : Oracle) (hm : OracleMatching oracle)
    (shuf : Nat → List Edge → List Edge) (edges : List Edge)
    (budget maxPasses : Nat) (shuffle overlap : Bool) :
    (∀ X ∈ (streamingRun oracle shuf edges budget maxPasses shuffle overlap).trace,
        IsMatching X)
      ∧ IsMatching (streamingRun oracle shuf edges budget maxPasses shuffle overlap).M :=
  runPasses_matching oracle hm shuf budget shuffle overlap maxPasses 1
    (if shuffle then shuf 0 edges else edges)
    (planWindows (if shuffle then shuf 0 edges else edges) budget overlap) ∅
    empty_isMatching

/-- C2 witness: concrete instantiation with the brute-force oracle. -/
theorem C2_matching_validity_witness :
    (∀ X ∈ (streamingRun maxMatching shufId [(1,2),(2,3),(3,4)] 2 2 false true).trace,
        IsMatching X)
      ∧ IsMatching (streamingRun maxMatching shufId [(1,2),(2,3),(3,4)] 2 2 false true).M :=
  C2_matching_validity maxMatching maxMatching_matching shufId [(1,2),(2,3),(3,4)]
    2 2 false true

/-- C3: during any run of `streaming_matching`, each processed window
either leaves `M` entirely unchanged or replaces it by a strictly larger
matching, so `|M|` never decreases across windows and passes (the trace
starts at `∅` and ends at the returned matching). -/
theorem C3_monotone (oracle : Oracle) (shuf : Nat → List Edge → List Edge)
    (edges : List Edge) (budget maxPasses : Nat) (shuffle overlap : Bool) :
    List.Chain' StepRel
        (∅ :: (streamingRun oracle shuf edges budget maxPasses shuffle overlap).trace)
      ∧ (streamingRun oracle shuf edges budget maxPasses shuffle overlap).trace.getLastD ∅
        = (streamingRun oracle shuf edges budget maxPasses shuffle overlap).M :=
  ⟨runPasses_chain oracle shuf budget shuffle overlap maxPasses 1
      (if shuffle then shuf 0 edges else edges)
      (planWindows (if shuffle then shuf 0 edges else edges) budget overlap) ∅,
   runPasses_getLastD oracle shuf budget shuffle overlap maxPasses 1
      (if shuffle then shuf 0 edges else edges)
      (planWindows (if shuffle then shuf 0 edges else edges) budget overlap) ∅⟩

/-- C4: with a sound and maximum oracle, and a shuffle that only permutes
the edge sequence, the streaming result never exceeds the optimum of the
full normalized edge set. -/
theorem C4_domination (oracle : Oracle) (hsub : OracleSub oracle)
    (hm : OracleMatching oracle) (hmax : OracleMax oracle)
    (shuf : Nat → List Edge → List Edge)
    (hshuf : ∀ (k : Nat) (l : List Edge), (shuf k l).Perm l)
    (edges : List Edge) (hnorm : ∀ e ∈ edges, e.1 < e.2)
    (budget maxPasses : Nat) (hb : 1 ≤ budget) (hp : 1 ≤ maxPasses)
    (shuffle overlap : Bool) :
    streaming_matching oracle shuf edges budget maxPasses shuffle overlap
      ≤ compute_optimal_matching oracle edges :=
  streaming_le_opt oracle hsub hm hmax shuf
    (fun k l e he => (hshuf k l).mem_iff.1 he) edges budget maxPasses shuffle overlap

/-- C4 witness: concrete instantiation with the brute-force oracle. -/
theorem C4_domination_witness :
    streaming_matching maxMatching shufId [(1,2),(3,4),(2,3)] 2 1 false false
      ≤ compute_optimal_matching maxMatching [(1,2),(3,4),(2,3)] :=
  C4_domination maxMatching maxMatching_sub maxMatching_matching maxMatching_max
    shufId (fun _ l => List.Perm.refl l) [(1,2),(3,4),(2,3)] (by decide)
    2 1 (by decide) (by decide) false false

/-- C5: `get_acc` returns `alg / opt` whenever `opt > 0` and exactly `1`
when `opt = 0`; for the empty edge sequence the optimum is `0` (the
oracle gets the empty edge set) and the accuracy is `1`. -/
theorem C5_accuracy_policy (oracle : Oracle) (hsub : OracleSub oracle)
    (shuf : Nat → List Edge → List Edge) (edges : List Edge)
    (budget maxPasses : Nat) (shuffle overlap : Bool) :
    (0 < compute_optimal_matching oracle edges →
      get_acc oracle shuf edges budget maxPasses shuffle overlap
        = (streaming_matching oracle shuf edges budget maxPasses shuffle overlap : ℚ)
          / (compute_optimal_matching oracle edges : ℚ))
    ∧ (compute_optimal_matching oracle edges = 0 →
        get_acc oracle shuf edges budget maxPasses shuffle overlap = 1)
    ∧ compute_optimal_matching oracle ([] : List Edge) = 0
    ∧ get_acc oracle shuf ([] : List Edge) budget maxPasses shuffle overlap = 1 := by
  have hopt0 : compute_optimal_matching oracle ([] : List Edge) = 0 := by
    rw [compute_optimal_matching]
    have : oracle ([] : List Edge).toFinset ⊆ ([] : List Edge).toFinset := hsub _
    simp only [List.toFinset_nil] at this
    rw [Finset.card_eq_zero, ← Finset.subset_empty]
    exact this
  refine ⟨?_, ?_, hopt0, ?_⟩
  · intro h
    rw [get_acc, if_pos h]
  · intro h
    rw [get_acc, h]
    simp
  · rw [get_acc, hopt0]
    simp

/-- C5 witness: concrete instantiation with the brute-force oracle. -/
theorem C5_accuracy_policy_witness :
    (0 < compute_optimal_matching maxMatching [(1,2)] →
      get_acc maxMatching shufId [(1,2)] 1 1 false false
        = (streaming_matching maxMatching shufId [(1,2)] 1 1 false false : ℚ)
          / (compute_optimal_matching maxMatching [(1,2)] : ℚ))
    ∧ (compute_optimal_matching maxMatching [(1,2)] = 0 →
        get_acc maxMatching shufId [(1,2)] 1 1 false false = 1)
    ∧ compute_optimal_matching maxMatching ([] : List Edge) = 0
    ∧ get_acc maxMatching shufId ([] : List Edge) 1 1 false false = 1 :=
  C5_accuracy_policy maxMatching maxMatching_sub shufId [(1,2)] 1 1 false false

/-- C6: `streaming_matching` terminates: it executes at most `max_passes`
passes, and when it stops before `max_passes` (which happens exactly when
a pass completes without augmentation), granting any number of additional
passes changes nothing — the run has already converged. -/
theorem C6_termination (oracle : Oracle) (shuf : Nat → List Edge → List Edge)
    (edges : List Edge) (budget maxPasses : Nat) (shuffle overlap : Bool) :
    (streamingRun oracle shuf edges budget maxPasses shuffle overlap).passes ≤ maxPasses
    ∧ ((streamingRun oracle shuf edges budget maxPasses shuffle overlap).passes < maxPasses →
        ∀ extra : Nat,
          streamingRun oracle shuf edges budget (maxPasses + extra) shuffle overlap
            = streamingRun oracle shuf edges budget maxPasses shuffle overlap) :=
  ⟨runPasses_passes_le oracle shuf budget shuffle overlap maxPasses 1
      (if shuffle then shuf 0 edges else edges)
      (planWindows (if shuffle then shuf 0 edges else edges) budget overlap) ∅,
   fun h extra =>
     runPasses_stable oracle shuf budget shuffle overlap maxPasses 1
       (if shuffle then shuf 0 edges else edges)
       (planWindows (if shuffle then shuf 0 edges else edges) budget overlap) ∅
       h (maxPasses + extra) (Nat.le_add_right _ _)⟩

/-- C6 witness: a run on one edge with a generous budget converges after
two passes out of three, and extra passes change nothing. -/
theorem C6_termination_witness :
    streamingRun maxMatching shufId [(1,2)] 5 (3 + 2) false false
      = streamingRun maxMatching shufId [(1,2)] 5 3 false false :=
  (C6_termination maxMatching shufId [(1,2)] 5 3 false false).2 (by decide) 2

/-- C7: the concrete scenario: edges `[(1,2),(3,4),(2,3)]`, budget 2,
one pass, no shuffle, no overlap.  Windows are `[[(1,2),(3,4)],[(2,3)]]`;
window 1 augments to `M = {(1,2),(3,4)}`; window 2 is cut off by the
exhausted budget (the trace has a single entry); the run returns
`alg = 2`; the full-graph optimum is `2`; the accuracy is `1`. -/
theorem C7_concrete_scenario :
    planWindows [(1,2),(3,4),(2,3)] 2 false = [[(1,2),(3,4)],[(2,3)]]
    ∧ (streamingRun maxMatching shufId [(1,2),(3,4),(2,3)] 2 1 false false).trace
        = [{(1,2),(3,4)}]
    ∧ (streamingRun maxMatching shufId [(1,2),(3,4),(2,3)] 2 1 false false).M
        = {(1,2),(3,4)}
    ∧ streaming_matching maxMatching shufId [(1,2),(3,4),(2,3)] 2 1 false false = 2
    ∧ compute_optimal_matching maxMatching [(1,2),(3,4),(2,3)] = 2
    ∧ get_acc maxMatching shufId [(1,2),(3,4),(2,3)] 2 1 false false = 1 := by
  have halg : streaming_matching maxMatching shufId [(1,2),(3,4),(2,3)] 2 1 false false = 2 := by
    decide
  have hopt : compute_optimal_matching maxMatching [(1,2),(3,4),(2,3)] = 2 := by decide
  refine ⟨by decide, by decide, by decide, halg, hopt, ?_⟩
  rw [get_acc, halg, hopt]
  norm_num

/-- Nat ceiling division: `(n + s - 1) / s` computes `⌈n / s⌉`. -/
theorem ceil_div_eq (n s : Nat) (hs : 1 ≤ s) :
    (n + s - 1) / s = ⌈(n : ℚ) / (s : ℚ)⌉₊ := by
  obtain ⟨t, rfl⟩ : ∃ t, s = t + 1 := ⟨s - 1, by omega⟩
  have hns : n + (t + 1) - 1 = n + t := by omega
  rw [hns]
  have hsQ : (0 : ℚ) < ((t + 1 : ℕ) : ℚ) := by exact_mod_cast Nat.succ_pos t
  apply le_antisymm
  · rw [Nat.div_le_iff_le_mul_add_pred (Nat.succ_pos t)]
    have hle : (n : ℚ) ≤ (⌈(n : ℚ) / ((t + 1 : ℕ) : ℚ)⌉₊ : ℚ) * ((t + 1 : ℕ) : ℚ) := by
      rw [← div_le_iff₀ hsQ]
      exact Nat.le_ceil _
    have hleN : n ≤ ⌈(n : ℚ) / ((t + 1 : ℕ) : ℚ)⌉₊ * (t + 1) := by exact_mod_cast hle
    rw [Nat.mul_comm] at hleN
    set p := (t + 1) * ⌈(n : ℚ) / ((t + 1 : ℕ) : ℚ)⌉₊ with hp
    omega
  · rw [Nat.ceil_le, div_le_iff₀ hsQ]
    have hN : n ≤ ((n + t) / (t + 1)) * (t + 1) := by
      have h1 := Nat.div_add_mod (n + t) (t + 1)
      have h2 : (n + t) % (t + 1) < t + 1 := Nat.mod_lt _ (Nat.succ_pos t)
      rw [Nat.mul_comm]
      set q := (n + t) / (t + 1) with hq
      set r := (n + t) % (t + 1) with hr
      set p := (t + 1) * q with hp
      omega
    exact_mod_cast hN

/-- C8: in overlap mode with budget `b ≥ 1` and `step = max(1, b / 2)`,
the planner produces exactly `⌈n / step⌉` windows (`0` when `n = 0`),
the `i`-th being `edges[i*step : i*step + b]`, of length at most `b`. -/
theorem C8_overlap_window_count (edges : List Edge) (b : Nat) (hb : 1 ≤ b) :
    planWindows edges b true
        = (List.range ⌈(edges.length : ℚ) / ((max 1 (b / 2) : ℕ) : ℚ)⌉₊).map
            (fun i => (edges.drop (i * max 1 (b / 2))).take b)
    ∧ (planWindows edges b true).length
        = ⌈(edges.length : ℚ) / ((max 1 (b / 2) : ℕ) : ℚ)⌉₊
    ∧ (∀ w ∈ planWindows edges b true, w.length ≤ b)
    ∧ (edges.length = 0 → planWindows edges b true = []) := by
  have hstep : 1 ≤ max 1 (b / 2) := le_max_left 1 _
  have hceil := ceil_div_eq edges.length (max 1 (b / 2)) hstep
  have hplan : planWindows edges b true = overlapWindows edges b := rfl
  have hbody : overlapWindows edges b
      = (List.range ((edges.length + max 1 (b / 2) - 1) / max 1 (b / 2))).map
          (fun i => (edges.drop (i * max 1 (b / 2))).take b) := rfl
  refine ⟨?_, ?_, ?_, ?_⟩
  · rw [hplan, hbody, hceil]
  · rw [hplan, hbody, List.length_map, List.length_range, hceil]
  · intro w hw
    rw [hplan] at hw
    rcases List.mem_map.1 hw with ⟨k, _, rfl⟩
    rw [List.length_take]
    exact min_le_left _ _
  · intro h
    have hz : (edges.length + max 1 (b / 2) - 1) / max 1 (b / 2) = 0 := by
      rw [h]
      exact Nat.div_eq_of_lt (by omega)
    rw [hplan, hbody, hz, List.range_zero, List.map_nil]

/-- C8 witness: three edges, budget 2, step 1: three overlap windows. -/
theorem C8_overlap_window_count_witness :
    planWindows [(1,2),(3,4),(2,3)] 2 true
        = (List.range ⌈(([(1,2),(3,4),(2,3)] : List Edge).length : ℚ)
              / ((max 1 (2 / 2) : ℕ) : ℚ)⌉₊).map
            (fun i => (([(1,2),(3,4),(2,3)] : List Edge).drop (i * max 1 (2 / 2))).take 2)
    ∧ (planWindows [(1,2),(3,4),(2,3)] 2 true).length
        = ⌈(([(1,2),(3,4),(2,3)] : List Edge).length : ℚ) / ((max 1 (2 / 2) : ℕ) : ℚ)⌉₊
    ∧ (∀ w ∈ planWindows [(1,2),(3,4),(2,3)] 2 true, w.length ≤ 2)
    ∧ (([(1,2),(3,4),(2,3)] : List Edge).length = 0 →
        planWindows [(1,2),(3,4),(2,3)] 2 true = []) :=
  C8_overlap_window_count [(1,2),(3,4),(2,3)] 2 (by decide)

theorem runPassesFixed_succ_stop (o : Oracle) (b n : Nat)
    (windows : List (List Edge)) (M : Finset Edge)
    (h : (runWindows o b windows M false).improved = false) :
    runPassesFixed o b (n + 1) windows M
      = ⟨(runWindows o b windows M false).M, (runWindows o b windows M false).trace, 1⟩ := by
  simp only [runPassesFixed, h, Bool.false_eq_true, if_false]

theorem runPassesFixed_succ_go (o : Oracle) (b n : Nat)
    (windows : List (List Edge)) (M : Finset Edge)
    (h : (runWindows o b windows M false).improved = true) :
    runPassesFixed o b (n + 1) windows M
      = ⟨(runPassesFixed o b n windows (runWindows o b windows M false).M).M,
         (runWindows o b windows M false).trace
           ++ (runPassesFixed o b n windows (runWindows o b windows M false).M).trace,
         (runPassesFixed o b n windows (runWindows o b windows M false).M).passes + 1⟩ := by
  simp only [runPassesFixed, h, if_true]

/-- In overlap mode the pass loop never touches the shuffle source nor
rebuilds its window list. -/
theorem runPasses_overlap_fixed (o : Oracle) (shuf : Nat → List Edge → List Edge)
    (b : Nat) (sh : Bool) (n : Nat) :
    ∀ (k : Nat) (edges : List Edge) (windows : List (List Edge)) (M : Finset Edge),
      runPasses o shuf b sh true n k edges windows M = runPassesFixed o b n windows M := by
  induction n with
  | zero => intro k edges windows M; rfl
  | succ n ih =>
    intro k edges windows M
    cases himp : (runWindows o b windows M false).improved with
    | false =>
      rw [runPasses_succ_stop o shuf b sh true n k edges windows M himp,
        runPassesFixed_succ_stop o b n windows M himp]
    | true =>
      have hmode : (sh && !true) = false := by simp
      rw [runPasses_succ_keep o shuf b sh true n k edges windows M himp hmode,
        runPassesFixed_succ_go o b n windows M himp, ih k edges windows _]

/-- C9: in overlap mode the window list is computed once, before the
first pass, and reused verbatim in every pass: the whole run equals the
fixed-window pass loop on those windows, and is unchanged when the
injected randomness source is replaced by any other source that agrees
on the single initial shuffle call. -/
theorem C9_overlap_frame (oracle : Oracle)
    (shuf shuf2 : Nat → List Edge → List Edge) (edges : List Edge)
    (budget maxPasses : Nat) (shuffle : Bool)
    (hagree : shuf 0 edges = shuf2 0 edges) :
    streamingRun oracle shuf edges budget maxPasses shuffle true
        = runPassesFixed oracle budget maxPasses
            (overlapWindows (if shuffle then shuf 0 edges else edges) budget) ∅
    ∧ streamingRun oracle shuf edges budget maxPasses shuffle true
        = streamingRun oracle shuf2 edges budget maxPasses shuffle true := by
  have h1 : streamingRun oracle shuf edges budget maxPasses shuffle true
      = runPassesFixed oracle budget maxPasses
          (overlapWindows (if shuffle then shuf 0 edges else edges) budget) ∅ :=
    runPasses_overlap_fixed oracle shuf budget shuffle maxPasses 1
      (if shuffle then shuf 0 edges else edges)
      (overlapWindows (if shuffle then shuf 0 edges else edges) budget) ∅
  have hsame : (if shuffle then shuf 0 edges else edges)
      = (if shuffle then shuf2 0 edges else edges) := by
    cases shuffle with
    | false => rfl
    | true => exact hagree
  have h2 : streamingRun oracle shuf2 edges budget maxPasses shuffle true
      = runPassesFixed oracle budget maxPasses
          (overlapWindows (if shuffle then shuf2 0 edges else edges) budget) ∅ :=
    runPasses_overlap_fixed oracle shuf2 budget shuffle maxPasses 1
      (if shuffle then shuf2 0 edges else edges)
      (overlapWindows (if shuffle then shuf2 0 edges else edges) budget) ∅
  refine ⟨h1, ?_⟩
  rw [h1, h2, hsame]

/-- C9 witness: identity randomness against a source that reverses the
edges on every later call; in overlap mode the runs coincide. -/
theorem C9_overlap_frame_witness :
    streamingRun maxMatching shufId [(1,2),(2,3)] 1 2 true true
        = runPassesFixed maxMatching 1 2
            (overlapWindows (if true then shufId 0 [(1,2),(2,3)] else [(1,2),(2,3)]) 1) ∅
    ∧ streamingRun maxMatching shufId [(1,2),(2,3)] 1 2 true true
        = streamingRun maxMatching shufAlt [(1,2),(2,3)] 1 2 true true :=
  C9_overlap_frame maxMatching shufId shufAlt [(1,2),(2,3)] 1 2 true rfl

theorem windowsAux_full (edges : List Edge) (b s : Nat) (hs : 1 ≤ s)
    (hne : edges ≠ []) (hb : edges.length ≤ b) :
    ∃ rest, (List.range ((edges.length + s - 1) / s)).map
        (fun k => (edges.drop (k * s)).take b) = edges :: rest := by
  have hlen : 0 < edges.length := List.length_pos.2 hne
  have hcount : 1 ≤ (edges.length + s - 1) / s := by
    rw [Nat.le_div_iff_mul_le (by omega : 0 < s)]
    omega
  obtain ⟨c, hc⟩ : ∃ c, (edges.length + s - 1) / s = c + 1 :=
    ⟨(edges.length + s - 1) / s - 1, by omega⟩
  refine ⟨((List.range c).map (· + 1)).map (fun k => (edges.drop (k * s)).take b), ?_⟩
  rw [hc, List.range_succ_eq_map, List.map_cons]
  congr 1
  rw [Nat.zero_mul, List.drop_zero]
  exact List.take_of_length_le hb

theorem planWindows_full (edges : List Edge) (b : Nat) (ov : Bool)
    (hne : edges ≠ []) (hb : edges.length ≤ b) :
    ∃ rest, planWindows edges b ov = edges :: rest := by
  cases ov with
  | false =>
    have hbpos : 1 ≤ b := le_trans (List.length_pos.2 hne) hb
    exact windowsAux_full edges b b hbpos hne hb
  | true =>
    exact windowsAux_full edges b (max 1 (b / 2)) (le_max_left 1 _) hne hb

theorem runPasses_ge_first (o : Oracle) (shuf : Nat → List Edge → List Edge)
    (b : Nat) (sh ov : Bool) (n k : Nat) (edges : List Edge)
    (windows : List (List Edge)) (M : Finset Edge) (hp : 1 ≤ n) :
    (runWindows o b windows M false).M.card
      ≤ (runPasses o shuf b sh ov n k edges windows M).M.card := by
  obtain ⟨m, rfl⟩ : ∃ m, n = m + 1 := ⟨n - 1, by omega⟩
  cases himp : (runWindows o b windows M false).improved with
  | false =>
    rw [runPasses_succ_stop o shuf b sh ov m k edges windows M himp]
  | true =>
    cases hmode : (sh && !ov) with
    | false =>
      rw [runPasses_succ_keep o shuf b sh ov m k edges windows M himp hmode]
      exact runPasses_mono o shuf b sh ov m k edges windows _
    | true =>
      rw [runPasses_succ_rebuild o shuf b sh ov m k edges windows M himp hmode]
      exact runPasses_mono o shuf b sh ov m _ _ _ _

/-- With a full budget and at least one pass, the very first window holds
the whole (possibly shuffled) edge sequence, so the streaming matching is
at least the optimum. -/
theorem opt_le_streaming (oracle : Oracle) (hsub : OracleSub oracle)
    (shuf : Nat → List Edge → List Edge)
    (hperm : ∀ (k : Nat) (l : List Edge), (shuf k l).Perm l)
    (edges : List Edge) (budget maxPasses : Nat)
    (hb : edges.length ≤ budget) (hp : 1 ≤ maxPasses) (shuffle overlap : Bool) :
    compute_optimal_matching oracle edges
      ≤ streaming_matching oracle shuf edges budget maxPasses shuffle overlap := by
  rcases Nat.eq_zero_or_pos (compute_optimal_matching oracle edges) with hopt | hopt
  · rw [hopt]; exact Nat.zero_le _
  have hperm1 : (if shuffle then shuf 0 edges else edges).Perm edges := by
    cases shuffle with
    | false => exact List.Perm.refl edges
    | true => exact hperm 0 edges
  have hfin : (if shuffle then shuf 0 edges else edges).toFinset = edges.toFinset :=
    perm_toFinset _ _ hperm1
  have hne : edges ≠ [] := by
    intro h
    subst h
    have hsubE : oracle ([] : List Edge).toFinset ⊆ ∅ := by
      simpa using hsub ([] : List Edge).toFinset
    have : compute_optimal_matching oracle ([] : List Edge) = 0 := by
      rw [compute_optimal_matching, Finset.card_eq_zero, ← Finset.subset_empty]
      exact hsubE
    omega
  have hne1 : (if shuffle then shuf 0 edges else edges) ≠ [] := by
    intro h
    exact hne ((h ▸ hperm1).symm.eq_nil)
  have hlen1 : (if shuffle then shuf 0 edges else edges).length ≤ budget := by
    rw [hperm1.length_eq]; exact hb
  obtain ⟨rest, hwin⟩ :=
    planWindows_full (if shuffle then shuf 0 edges else edges) budget overlap hne1 hlen1
  have hbpos : ¬ budget ≤ (∅ : Finset Edge).card := by
    have : 0 < (if shuffle then shuf 0 edges else edges).length :=
      List.length_pos.2 hne1
    rw [Finset.card_empty]
    omega
  have hcand : ((∅ : Finset Edge)
      ∪ ((if shuffle then shuf 0 edges else edges).take
          (budget - (∅ : Finset Edge).card)).toFinset) = edges.toFinset := by
    rw [Finset.card_empty, Nat.sub_zero, List.take_of_length_le hlen1,
      Finset.empty_union, hfin]
  by_cases haug : (∅ : Finset Edge).card
      < (oracle ((∅ : Finset Edge)
          ∪ ((if shuffle then shuf 0 edges else edges).take
              (budget - (∅ : Finset Edge).card)).toFinset)).card
  · have heq := runWindows_aug oracle budget (if shuffle then shuf 0 edges else edges)
      rest ∅ false hbpos haug
    have hstep1 : compute_optimal_matching oracle edges
        ≤ (runWindows oracle budget
            ((if shuffle then shuf 0 edges else edges) :: rest) ∅ false).M.card := by
      rw [heq, hcand]
      exact runWindows_mono oracle budget rest (oracle edges.toFinset) true
    have hstep2 := runPasses_ge_first oracle shuf budget shuffle overlap maxPasses 1
      (if shuffle then shuf 0 edges else edges)
      ((if shuffle then shuf 0 edges else edges) :: rest) ∅ hp
    have halg : streaming_matching oracle shuf edges budget maxPasses shuffle overlap
        = (runPasses oracle shuf budget shuffle overlap maxPasses 1
            (if shuffle then shuf 0 edges else edges)
            ((if shuffle then shuf 0 edges else edges) :: rest) ∅).M.card := by
      rw [streaming_matching]
      show (runPasses oracle shuf budget shuffle overlap maxPasses 1
          (if shuffle then shuf 0 edges else edges)
          (planWindows (if shuffle then shuf 0 edges else edges) budget overlap)
          ∅).M.card = _
      rw [hwin]
    rw [halg]
    exact le_trans hstep1 hstep2
  · rw [hcand] at haug
    rw [Finset.card_empty] at haug
    rw [compute_optimal_matching] at hopt
    omega

/-- C10: if the budget covers the whole edge sequence and at least one
pass runs, `streaming_matching` attains the optimum (the first window is
the whole graph), and the accuracy is `1`, in every mode. -/
theorem C10_full_budget_optimal (oracle : Oracle) (hsub : OracleSub oracle)
    (hm : OracleMatching oracle) (hmax : OracleMax oracle)
    (shuf : Nat → List Edge → List Edge)
    (hperm : ∀ (k : Nat) (l : List Edge), (shuf k l).Perm l)
    (edges : List Edge) (budget maxPasses : Nat)
    (hb : edges.length ≤ budget) (hp : 1 ≤ maxPasses) (shuffle overlap : Bool) :
    streaming_matching oracle shuf edges budget maxPasses shuffle overlap
        = compute_optimal_matching oracle edges
    ∧ get_acc oracle shuf edges budget maxPasses shuffle overlap = 1 := by
  have hle := streaming_le_opt oracle hsub hm hmax shuf
    (fun k l e he => (hperm k l).mem_iff.1 he) edges budget maxPasses shuffle overlap
  have hge := opt_le_streaming oracle hsub shuf hperm edges budget maxPasses hb hp
    shuffle overlap
  have heq := le_antisymm hle hge
  refine ⟨heq, ?_⟩
  rw [get_acc, heq]
  rcases Nat.eq_zero_or_pos (compute_optimal_matching oracle edges) with h0 | hpos
  · rw [h0]
    simp
  · rw [if_pos hpos]
    have hne : ((compute_optimal_matching oracle edges : ℕ) : ℚ) ≠ 0 := by
      exact_mod_cast Nat.pos_iff_ne_zero.1 hpos
    exact div_self hne

/-- C10 witness: two edges, budget 5, one pass, shuffled non-overlap. -/
theorem C10_full_budget_optimal_witness :
    streaming_matching maxMatching shufId [(1,2),(2,3)] 5 1 true false
        = compute_optimal_matching maxMatching [(1,2),(2,3)]
    ∧ get_acc maxMatching shufId [(1,2),(2,3)] 5 1 true false = 1 :=
  C10_full_budget_optimal maxMatching maxMatching_sub maxMatching_matching
    maxMatching_max shufId (fun _ l => List.Perm.refl l) [(1,2),(2,3)] 5 1
    (by decide) (by decide) true false
